import Mathlib

/-!
Verification of the experience-replay / actor-critic training core declared in
`src/dqn.hpp` (class `dqn::DQN`).  The repository ships only the header: the
bodies of most member functions live in a translation unit that is not part of
`src/`, so those operations are modelled from the specification text, while the
inline members (`ClearReplayMemory`, `memory_size`, `getMemory`, the iteration
accessors) are embedded from the header directly.  Real-valued network
parameters are modelled with `ℚ` (exact arithmetic).
-/

namespace DqnSpec

/-- Shallow embedding of `dqn::Transition`
(`std::tuple<InputStates, int, ActorOutput, float, float,
boost::optional<StateDataSp>>`, dqn.hpp lines 32-37): state window, task id,
actor output, reward, on-policy target, optional next state. -/
structure Transition where
  state : List ℚ
  task : Int
  action : List ℚ
  reward : ℚ
  onPolicyTarget : ℚ
  nextState : Option (List ℚ)
deriving DecidableEq, Repr

/-- The suffix of `l` keeping at most the last `cap` elements: the result of
evicting the oldest entries of a FIFO buffer until its size is at most `cap`. -/
def keepLast (cap : Nat) (l : List Transition) : List Transition :=
  l.drop (l.length - cap)

/-- Modelled from the spec: the body of `DQN::AddTransition` (declared at
dqn.hpp line 130, defined in the missing translation unit) — append the
transition to `replay_memory_`; if the size exceeds the capacity
`replay_memory_capacity_`, evict the oldest entries until size == capacity. -/
def addTransition (cap : Nat) (mem : List Transition) (t : Transition) :
    List Transition :=
  keepLast cap (mem ++ [t])

/-- Modelled from the spec: the body of `DQN::AddTransitions` (declared at
dqn.hpp line 131, defined in the missing translation unit) — add each
transition of the batch in order. -/
def addTransitions (cap : Nat) (mem : List Transition)
    (ts : List Transition) : List Transition :=
  ts.foldl (addTransition cap) mem

/-- Modelled from the spec: the body of `DQN::SoftUpdateNet` (declared at
dqn.hpp line 218, defined in the missing translation unit; the header comment
at lines 216-217 states the update rule
net_to = tau * net_from + (1 - tau) * net_to) — blend every target parameter
toward the online parameter, elementwise over the flattened parameters. -/
def softUpdateNet (tau : ℚ) (netFrom netTo : List ℚ) : List ℚ :=
  List.zipWith (fun o t => tau * o + (1 - tau) * t) netFrom netTo

/-- A hybrid actor output as described by the spec: a score per discrete
action choice, per-discrete-action continuous parameters (two per choice,
stored consecutively), and an optional communication-message segment. -/
structure ActorOutputS where
  discreteScores : List ℚ
  contParams : List ℚ
  commMessage : List ℚ
deriving DecidableEq, Repr

/-- Shallow embedding of the runtime `Action` (dqn.hpp lines 16-20): the
selected discrete choice together with its two continuous parameters. -/
structure ActionS where
  choice : Nat
  arg1 : ℚ
  arg2 : ℚ
deriving DecidableEq, Repr

/-- First index of a maximal element of the list (ties broken by first
occurrence); `0` on the empty list. -/
def argmaxIdx : List ℚ → Nat
  | [] => 0
  | x :: xs =>
    if xs.getD (argmaxIdx xs) x > x then argmaxIdx xs + 1 else 0

/-- Modelled from the spec: the body of `DQN::GetAction` (declared at dqn.hpp
lines 108-109, defined in the missing translation unit) — convert an
ActorOutput into an action by maxing over the discrete action scores and
taking the two continuous parameters associated with the chosen index. -/
def getAction (ao : ActorOutputS) : ActionS :=
  { choice := argmaxIdx ao.discreteScores,
    arg1 := ao.contParams.getD (2 * argmaxIdx ao.discreteScores) 0,
    arg2 := ao.contParams.getD (2 * argmaxIdx ao.discreteScores + 1) 0 }

/-- Concrete transition used by witnesses: only the task id varies. -/
def sampleT (i : Int) : Transition :=
  { state := [], task := i, action := [], reward := 0, onPolicyTarget := 0,
    nextState := none }

/-- Seven distinct concrete transitions, for the capacity-5 scenario. -/
def sevenList : List Transition :=
  [sampleT 0, sampleT 1, sampleT 2, sampleT 3, sampleT 4, sampleT 5,
   sampleT 6]

/-- An actor network modelled abstractly: maps a state window and task id to
an actor output vector (`actor_net_` / `actor_target_net_`, dqn.hpp lines
280 and 287). -/
def ActorNet : Type := List ℚ → Int → List ℚ

/-- A critic network modelled abstractly: maps state window, task id and
action vector to a scalar q-value (`critic_net_` / `critic_target_net_`,
dqn.hpp lines 282 and 286). -/
def CriticNet : Type := List ℚ → Int → List ℚ → ℚ

/-- The online and target actor/critic networks held by one DQN instance
(dqn.hpp lines 280-287) together with the discount `gamma_` (line 277). -/
structure DQNNets where
  actorNet : ActorNet
  criticNet : CriticNet
  actorTargetNet : ActorNet
  criticTargetNet : CriticNet
  gamma : ℚ

/-- Modelled from the spec: `DQN::CriticForwardThroughActor` (declared at
dqn.hpp lines 236-239, body in the missing translation unit) — run the critic
forward on the action inferred by the actor for the given state and task. -/
def criticForwardThroughActor (critic : CriticNet) (actor : ActorNet)
    (state : List ℚ) (task : Int) : ℚ :=
  critic state task (actor state task)

/-- Modelled from the spec: the critic-target computation inside
`DQN::UpdateActorCritic` (declared at dqn.hpp line 186, body in the missing
translation unit) — per transition, if the next state is present the training
target is
reward + gamma * CriticForwardThroughActor(critic_target_net_,
actor_target_net_, next_state, task), and the reward alone when the next
state is absent (terminal transition). -/
def criticTargets (d : DQNNets) (batch : List Transition) : List ℚ :=
  batch.map (fun tr =>
    match tr.nextState with
    | some s => tr.reward + d.gamma *
        criticForwardThroughActor d.criticTargetNet d.actorTargetNet s tr.task
    | none => tr.reward)

/-- Concrete networks used by witnesses. -/
def netsW : DQNNets :=
  { actorNet := fun _ _ => [0],
    criticNet := fun _ _ _ => 0,
    actorTargetNet := fun _ _ => [1],
    criticTargetNet := fun _ _ a => a.getD 0 0 + 2,
    gamma := 1/2 }

/-- The witness networks with different ONLINE actor and critic nets. -/
def netsW2 : DQNNets :=
  { netsW with actorNet := fun _ _ => [9], criticNet := fun _ _ _ => 9 }

/-- A concrete two-transition batch: one bootstrapped, one terminal. -/
def batchW : List Transition :=
  [{ state := [0], task := 0, action := [], reward := 3, onPolicyTarget := 0,
     nextState := some [5] },
   { state := [0], task := 0, action := [], reward := 4, onPolicyTarget := 0,
     nextState := none }]

/-- A named layer holding a reference (an identifier) to its parameter
storage (`caffe::Layer`, used by ShareLayer at dqn.hpp lines 158-160). -/
structure Layer where
  name : String
  params : Nat
deriving DecidableEq, Repr

/-- The named layers of the actor and critic networks of one DQN instance. -/
structure NetLayers where
  actorLayers : List Layer
  criticLayers : List Layer
deriving DecidableEq, Repr

/-- Modelled from the spec: `DQN::ShareLayer` (declared at dqn.hpp lines
158-160, body in the missing translation unit) — the slave adopts the owner
parameter storage by reference and its own copy is discarded; every slave
layer carrying the owner layer name takes the owner params reference. -/
def shareLayerByName (owner : Layer) (slaveLayers : List Layer) :
    List Layer :=
  slaveLayers.map (fun s =>
    if s.name = owner.name then { s with params := owner.params } else s)

/-- Modelled from the spec: the per-role loop of `DQN::ShareParameters`
(declared at dqn.hpp lines 162-165, body in the missing translation unit) —
walk the owner layers in order; each must have a layer of the same name on
the slave side (fail immediately otherwise), which then adopts the owner
params. -/
def shareRoleLayers (ownerLayers slaveLayers : List Layer) :
    Except String (List Layer) :=
  match ownerLayers with
  | [] => Except.ok slaveLayers
  | l :: rest =>
    if slaveLayers.any (fun s => s.name == l.name) then
      shareRoleLayers rest (shareLayerByName l slaveLayers)
    else Except.error ("no layer named " ++ l.name)

/-- Modelled from the spec: `DQN::ShareParameters` (declared at dqn.hpp lines
162-165, body in the missing translation unit) — share the first nActor actor
layers and the first nCritic critic layers of self into other, failing
immediately on any unmatched layer name. -/
def shareParameters (self other : NetLayers) (nActor nCritic : Nat) :
    Except String NetLayers :=
  match shareRoleLayers (self.actorLayers.take nActor) other.actorLayers with
  | Except.error e => Except.error e
  | Except.ok a =>
    match shareRoleLayers (self.criticLayers.take nCritic)
        other.criticLayers with
    | Except.error e => Except.error e
    | Except.ok c => Except.ok { actorLayers := a, criticLayers := c }

/-- Concrete sharing owner used by witnesses. -/
def selfW : NetLayers :=
  { actorLayers := [⟨"conv1", 1⟩, ⟨"conv2", 2⟩],
    criticLayers := [⟨"cconv1", 5⟩] }

/-- Concrete sharing slave used by witnesses. -/
def otherW : NetLayers :=
  { actorLayers := [⟨"conv2", 12⟩, ⟨"conv1", 11⟩],
    criticLayers := [⟨"cconv1", 15⟩] }

/-- The shared replay storage: `replay_memory_` is a
`std::shared_ptr<std::deque<Transition>>` (dqn.hpp line 278), so distinct DQN
instances may point at one and the same buffer.  The store maps each buffer
address to its contents. -/
structure ReplayStore where
  buffers : Nat → List Transition

/-- The per-instance state a DQN holds besides the networks: the address its
`replay_memory_` shared pointer refers to, the three solver iteration
counters (`actor_iter`, `critic_iter`, `semantic_iter`, dqn.hpp lines
173-175), `save_path_` (line 291) and flattened network parameters. -/
structure DQNRef where
  memPtr : Nat
  actorIterCount : Nat
  criticIterCount : Nat
  semanticIterCount : Nat
  savePath : String
  actorParams : List ℚ
  criticParams : List ℚ

/-- A DQN instance together with the replay storage it lives in. -/
structure DQNMachine where
  store : ReplayStore
  dqn : DQNRef

/-- Embeds `DQN::memory_size` (inline at dqn.hpp line 156:
`return replay_memory_->size();`). -/
def memorySize (st : ReplayStore) (d : DQNRef) : Nat :=
  (st.buffers d.memPtr).length

/-- `DQN::AddTransition` acting through an instance's shared pointer: the
buffer the instance refers to is updated, every other buffer untouched. -/
def addTransitionRef (cap : Nat) (st : ReplayStore) (d : DQNRef)
    (t : Transition) : ReplayStore :=
  { buffers := fun p =>
      if p = d.memPtr then addTransition cap (st.buffers p) t
      else st.buffers p }

/-- Embeds `DQN::ClearReplayMemory` (inline at dqn.hpp line 150:
`replay_memory_->clear();`): the referenced buffer is emptied, nothing else
in the store changes. -/
def clearReplayMemory (st : ReplayStore) (d : DQNRef) : ReplayStore :=
  { buffers := fun p => if p = d.memPtr then [] else st.buffers p }

/-- `ClearReplayMemory` on a whole machine: only the store changes; the
instance's counters, save path and network parameters are untouched. -/
def clearReplayMemoryM (m : DQNMachine) : DQNMachine :=
  { store := clearReplayMemory m.store m.dqn, dqn := m.dqn }

/-- Modelled from the spec: `DQN::ShareReplayMemory` (declared at dqn.hpp
lines 167-168, body in the missing translation unit; header comment: frees
the replay memory of other, which now points to our own replay mem) — the
other instance drops its own buffer and takes the caller's buffer address. -/
def shareReplayMemory (self other : DQNRef) : DQNRef :=
  { other with memPtr := self.memPtr }

/-- One artifact kind a snapshot produces (dqn.hpp lines 84-86:
snapshot_prefix_iter_N.[caffemodel|solverstate|replaymem]). -/
inductive ArtifactKind
  | caffemodel
  | solverstate
  | replaymem
deriving DecidableEq, Repr

/-- One on-disk snapshot artifact: the shared path stem before the iteration
number, the iteration, and the artifact kind. -/
structure SnapshotFile where
  stem : String
  iter : Nat
  kind : ArtifactKind
deriving DecidableEq, Repr

/-- Modelled from the spec: `RemoveSnapshots` (declared at dqn.hpp lines
321-325, body in the missing translation unit) — removes the snapshot files
matching the stem whose iteration is less than minIter. -/
def removeSnapshots (stem : String) (minIter : Nat)
    (fs : List SnapshotFile) : List SnapshotFile :=
  fs.filter (fun f => !(f.stem == stem && decide (f.iter < minIter)))

/-- The artifacts one Snapshot call writes for the current iteration; the
replay memory artifact only when snapshotMemory is set (dqn.hpp 88-89). -/
def writtenFiles (stem : String) (iter : Nat) (snapshotMemory : Bool) :
    List SnapshotFile :=
  if snapshotMemory then
    [⟨stem, iter, ArtifactKind.caffemodel⟩,
     ⟨stem, iter, ArtifactKind.solverstate⟩,
     ⟨stem, iter, ArtifactKind.replaymem⟩]
  else
    [⟨stem, iter, ArtifactKind.caffemodel⟩,
     ⟨stem, iter, ArtifactKind.solverstate⟩]

/-- Modelled from the spec: `DQN::Snapshot` (declared at dqn.hpp lines 84-89,
body in the missing translation unit) — write the model/solver/replay-memory
artifacts for the current iteration, then, if removeOld, delete the files
sharing the stem with strictly lower iteration. -/
def snapshot (stem : String) (iter : Nat) (removeOld snapshotMemory : Bool)
    (fs : List SnapshotFile) : List SnapshotFile :=
  let fs2 := fs ++ writtenFiles stem iter snapshotMemory
  if removeOld then removeSnapshots stem iter fs2 else fs2

/-- The valid range of one continuous action parameter. -/
structure ParamRange where
  lo : ℚ
  hi : ℚ
deriving DecidableEq, Repr

/-- Draw a parameter from its valid range from a raw unit sample. -/
def randomInRange (r : ParamRange) (u : ℚ) : ℚ :=
  r.lo + u * (r.hi - r.lo)

/-- Modelled from the spec: `DQN::GetRandomActorOutput` (declared at dqn.hpp
line 91, body in the missing translation unit) — a uniformly random
ActorOutput: random discrete score profile, continuous parameters drawn from
their valid ranges, random communication segment.  The raw random draws are
explicit arguments. -/
def getRandomActorOutput (ranges : List ParamRange)
    (rawScores rawParams rawComm : List ℚ) : ActorOutputS :=
  { discreteScores := rawScores,
    contParams := List.zipWith randomInRange ranges rawParams,
    commMessage := rawComm }

/-- Modelled from the spec: `DQN::RandomizeNonCommActions` (declared at
dqn.hpp lines 92-93; header comment: the communication is not randomized) —
replace the discrete scores and continuous parameters of the given output
with random ones, keeping its communication segment. -/
def randomizeNonCommActions (ranges : List ParamRange)
    (rawScores rawParams : List ℚ) (ao : ActorOutputS) : ActorOutputS :=
  { discreteScores := rawScores,
    contParams := List.zipWith randomInRange ranges rawParams,
    commMessage := ao.commMessage }

/-- Modelled from the spec: `DQN::SelectAction` (declared at dqn.hpp lines
95-98, body in the missing translation unit) — epsilon-greedy action
selection: when the drawn uniform sample falls below epsilon, return a random
ActorOutput (the communication segment randomized only when flagged
randomizable), otherwise return the greedy actor forward output with no
exploration noise added. -/
def selectAction (actorForward : List ℚ → Int → ActorOutputS)
    (ranges : List ParamRange) (commRandomizable : Bool)
    (state : List ℚ) (task : Int) (epsilon draw : ℚ)
    (rawScores rawParams rawComm : List ℚ) : ActorOutputS :=
  if draw < epsilon then
    if commRandomizable then
      getRandomActorOutput ranges rawScores rawParams rawComm
    else
      randomizeNonCommActions ranges rawScores rawParams
        (actorForward state task)
  else actorForward state task

/-- A concrete greedy forward pass used by witnesses. -/
def actorFwdW : List ℚ → Int → ActorOutputS :=
  fun _ _ => ⟨[1], [2], [3]⟩

/-- Thread progress through the two-phase synchronized update: has not yet
deposited its phase-1 output, deposited and waiting at the first rendezvous,
released past the first rendezvous (reading teammates' phase-1 slots),
deposited phase-2 gradients and waiting at the second rendezvous, or released
past it (the call returns). -/
inductive Phase
  | idle
  | wrote1
  | passed1
  | wrote2
  | done
deriving DecidableEq, Repr

/-- Position of a phase along the protocol, for monotonicity reasoning. -/
def Phase.rank : Phase → Nat
  | Phase.idle => 0
  | Phase.wrote1 => 1
  | Phase.passed1 => 2
  | Phase.wrote2 => 3
  | Phase.done => 4

/-- The shared state of the synchronized update for M calling threads: each
thread's phase plus the shared per-agent gradient array (one phase-1 and one
phase-2 slot per thread, `none` until its owner has finished writing it). -/
structure SyncState (M : Nat) where
  phase : Fin M → Phase
  slot1 : Fin M → Option ℚ
  slot2 : Fin M → Option ℚ

/-- Number of threads that have arrived at the first rendezvous. -/
def arrived1 {M : Nat} (s : SyncState M) : Nat :=
  (Finset.univ.filter (fun j => s.phase j ≠ Phase.idle)).card

/-- Number of threads that have arrived at the second rendezvous. -/
def arrived2 {M : Nat} (s : SyncState M) : Nat :=
  (Finset.univ.filter (fun j => 3 ≤ (s.phase j).rank)).card

/-- Modelled from the spec: one interleaving step of the two-phase,
barrier-gated protocol of `DQN::SynchronizedUpdate` /
`DQN::SyncUpdateActorCritic` (declared at dqn.hpp lines 139-142 and 190-192,
bodies in the missing translation unit).  N is the party count the shared
`boost::barrier` was configured with; M is the number of threads that call
the routine.  A thread deposits its phase-1 output, blocks until N parties
have arrived, deposits its phase-2 gradients, and blocks at the second
rendezvous before returning; a rendezvous releases only when N parties have
arrived. -/
inductive SyncStep (N M : Nat) : SyncState M → SyncState M → Prop
  | write1 (s : SyncState M) (i : Fin M) (v : ℚ) :
      s.phase i = Phase.idle →
      SyncStep N M s
        { phase := Function.update s.phase i Phase.wrote1,
          slot1 := Function.update s.slot1 i (some v),
          slot2 := s.slot2 }
  | pass1 (s : SyncState M) (i : Fin M) :
      s.phase i = Phase.wrote1 → arrived1 s = N →
      SyncStep N M s
        { phase := Function.update s.phase i Phase.passed1,
          slot1 := s.slot1, slot2 := s.slot2 }
  | write2 (s : SyncState M) (i : Fin M) (v : ℚ) :
      s.phase i = Phase.passed1 →
      SyncStep N M s
        { phase := Function.update s.phase i Phase.wrote2,
          slot1 := s.slot1,
          slot2 := Function.update s.slot2 i (some v) }
  | pass2 (s : SyncState M) (i : Fin M) :
      s.phase i = Phase.wrote2 → arrived2 s = N →
      SyncStep N M s
        { phase := Function.update s.phase i Phase.done,
          slot1 := s.slot1, slot2 := s.slot2 }

/-- The starting state: all threads idle, no slot written. -/
def initSync (M : Nat) : SyncState M :=
  { phase := fun _ => Phase.idle,
    slot1 := fun _ => none,
    slot2 := fun _ => none }

/-- States reachable by interleaving protocol steps from the start. -/
def SyncReachable (N M : Nat) (s : SyncState M) : Prop :=
  Relation.ReflTransGen (SyncStep N M) (initSync M) s

/-- The protocol invariant for a full cohort: a written phase tracks a
written slot, and a thread past a rendezvous certifies every teammate has
reached it. -/
def SyncInv {M : Nat} (s : SyncState M) : Prop :=
  (∀ j, 1 ≤ (s.phase j).rank → (s.slot1 j).isSome = true) ∧
  (∀ j, 3 ≤ (s.phase j).rank → (s.slot2 j).isSome = true) ∧
  (∀ i j, 2 ≤ (s.phase i).rank → 1 ≤ (s.phase j).rank) ∧
  (∀ i j, 4 ≤ (s.phase i).rank → 3 ≤ (s.phase j).rank)

/-- With fewer callers than barrier parties, no thread gets past the first
rendezvous. -/
def DeadInv {M : Nat} (s : SyncState M) : Prop :=
  ∀ j, s.phase j = Phase.idle ∨ s.phase j = Phase.wrote1

/-- A concrete machine used by witnesses. -/
def machineW : DQNMachine :=
  { store := { buffers := fun _ => [sampleT 0] },
    dqn := { memPtr := 0, actorIterCount := 1, criticIterCount := 2,
             semanticIterCount := 3, savePath := "state/agent0",
             actorParams := [1], criticParams := [2] } }

theorem keepLast_length (cap : Nat) (l : List Transition) :
    (keepLast cap l).length = min l.length cap := by
  simp only [keepLast, List.length_drop]
  omega

theorem keepLast_le (cap : Nat) (l : List Transition) :
    (keepLast cap l).length ≤ cap := by
  rw [keepLast_length]; omega

theorem keepLast_of_le (cap : Nat) (l : List Transition)
    (h : l.length ≤ cap) : keepLast cap l = l := by
  simp [keepLast, Nat.sub_eq_zero_of_le h]

theorem keepLast_drop_one (cap : Nat) (m : List Transition)
    (t : Transition) (hm : m.length = cap) :
    keepLast cap (m ++ [t]) = (m ++ [t]).drop 1 := by
  unfold keepLast
  congr 1
  simp only [List.length_append, List.length_cons, List.length_nil, hm]
  omega

theorem keepLast_append_one (cap : Nat) (l : List Transition)
    (t : Transition) :
    keepLast cap (keepLast cap l ++ [t]) = keepLast cap (l ++ [t]) := by
  rcases Nat.eq_zero_or_pos cap with hc | hc
  · subst hc
    simp [keepLast]
  · rcases le_or_lt l.length cap with h | h
    · rw [keepLast_of_le cap l h]
    · have hlen1 : (keepLast cap l).length = cap := by
        rw [keepLast_length]; omega
      rw [keepLast_drop_one cap _ t hlen1]
      have h1 : (1 : Nat) ≤ (keepLast cap l).length := by omega
      rw [List.drop_append_of_le_length h1]
      unfold keepLast
      rw [List.drop_drop]
      have h2 : (l ++ [t]).length - cap = (1 + (l.length - cap)) := by
        simp only [List.length_append, List.length_cons, List.length_nil]
        omega
      rw [h2]
      have h3 : 1 + (l.length - cap) ≤ l.length := by omega
      rw [List.drop_append_of_le_length h3]
      have h4 : l.length - cap + 1 = 1 + (l.length - cap) := by omega
      rw [h4]

theorem addTransitions_eq_keepLast (cap : Nat) (ts : List Transition) :
    addTransitions cap [] ts = keepLast cap ts := by
  suffices h : ∀ (l ts : List Transition),
      ts.foldl (addTransition cap) (keepLast cap l) = keepLast cap (l ++ ts) by
    have := h [] ts
    simpa [addTransitions, keepLast] using this
  intro l ts
  induction ts generalizing l with
  | nil => simp
  | cons t ts ih =>
    simp only [List.foldl_cons, addTransition, keepLast_append_one]
    have := ih (l ++ [t])
    simpa using this

/-- C1: for every capacity and every sequence of added transitions, the replay
memory size stays at most the capacity after every step of the sequence, the
final buffer is exactly the most recently added `min(total, cap)` transitions
in insertion order (`keepLast cap ts`, the suffix of the insertion sequence),
and with capacity 5 adding 7 distinct transitions leaves size 5 with the two
oldest absent. -/
theorem addTransition_capacity_fifo (cap : Nat) (ts : List Transition) :
    (∀ n : Nat, (addTransitions cap [] (ts.take n)).length ≤ cap) ∧
    addTransitions cap [] ts = ts.drop (ts.length - cap) ∧
    (∀ sevenTs : List Transition, sevenTs.length = 7 → sevenTs.Nodup →
      (addTransitions 5 [] sevenTs).length = 5 ∧
      ∀ i : Fin sevenTs.length, (i : Nat) < 2 →
        sevenTs.get i ∉ addTransitions 5 [] sevenTs) := by
  refine ⟨?_, ?_, ?_⟩
  · intro n
    rw [addTransitions_eq_keepLast]
    exact keepLast_le cap _
  · rw [addTransitions_eq_keepLast]; rfl
  · intro sevenTs hlen hnd
    rw [addTransitions_eq_keepLast]
    constructor
    · rw [keepLast_length, hlen]; rfl
    · intro i hi hmem
      unfold keepLast at hmem
      rw [hlen] at hmem
      have h2 : sevenTs = sevenTs.take 2 ++ sevenTs.drop 2 :=
        (List.take_append_drop 2 sevenTs).symm
      have hget : sevenTs.get i ∈ sevenTs.take 2 := by
        rw [List.mem_take_iff_getElem]
        exact ⟨i, by omega, by simp⟩
      have hdisj := List.disjoint_take_drop (l := sevenTs) hnd
        (le_refl 2)
      exact hdisj hget hmem

/-- Witness for C1: the concrete capacity-5 scenario with seven distinct
transitions, instantiating the theorem at `sevenList`. -/
theorem addTransition_capacity_fifo_witness :
    (addTransitions 5 [] sevenList).length = 5 ∧
    sevenList.get ⟨0, by decide⟩ ∉ addTransitions 5 [] sevenList :=
  ⟨((addTransition_capacity_fifo 5 sevenList).2.2 sevenList rfl
      (by decide)).1,
   ((addTransition_capacity_fifo 5 sevenList).2.2 sevenList rfl
      (by decide)).2 ⟨0, by decide⟩ (by decide)⟩

/-- C2: for structurally identical parameter vectors, one `SoftUpdateNet` call
makes each target parameter equal `tau * online + (1 - tau) * prior_target`
elementwise; with `tau = 1` the target becomes exactly the online vector and
with `tau = 0` every target parameter is unchanged. -/
theorem softUpdateNet_blend (tau : ℚ) (netFrom netTo : List ℚ)
    (hlen : netFrom.length = netTo.length) :
    (softUpdateNet tau netFrom netTo).length = netTo.length ∧
    (∀ i : Nat, i < netTo.length →
      (softUpdateNet tau netFrom netTo).getD i 0
        = tau * netFrom.getD i 0 + (1 - tau) * netTo.getD i 0) ∧
    softUpdateNet 1 netFrom netTo = netFrom ∧
    softUpdateNet 0 netFrom netTo = netTo := by
  refine ⟨?_, ?_, ?_, ?_⟩
  · simp [softUpdateNet, hlen]
  · intro i hi
    have h1 : i < netFrom.length := by omega
    have h2 : i < (softUpdateNet tau netFrom netTo).length := by
      simp only [softUpdateNet, List.length_zipWith]
      omega
    rw [List.getD_eq_getElem _ _ h2, List.getD_eq_getElem _ _ h1,
      List.getD_eq_getElem _ _ hi]
    simp [softUpdateNet]
  · apply List.ext_getElem
    · simp only [softUpdateNet, List.length_zipWith]
      omega
    · intro i h1 h2
      simp [softUpdateNet]
  · apply List.ext_getElem
    · simp only [softUpdateNet, List.length_zipWith]
      omega
    · intro i h1 h2
      simp [softUpdateNet]

/-- Witness for C2: the blend applied to two concrete two-parameter
networks, with tau one half. -/
theorem softUpdateNet_blend_witness :
    (softUpdateNet (1/2) [1, 2] [3, 4]).getD 0 0
      = (1/2) * ([1, 2] : List ℚ).getD 0 0
        + (1 - 1/2) * ([3, 4] : List ℚ).getD 0 0 :=
  (softUpdateNet_blend (1/2) [1, 2] [3, 4] rfl).2.1 0 (by decide)

theorem argmaxIdx_lt_length (l : List ℚ) (h : l ≠ []) :
    argmaxIdx l < l.length := by
  induction l with
  | nil => exact absurd rfl h
  | cons x xs ih =>
    by_cases hxs : xs = []
    · subst hxs
      simp [argmaxIdx]
    · rw [argmaxIdx]
      split
      · have := ih hxs
        simp only [List.length_cons]
        omega
      · simp

theorem argmaxIdx_max (l : List ℚ) :
    ∀ i, i < l.length → l.getD i 0 ≤ l.getD (argmaxIdx l) 0 := by
  induction l with
  | nil => intro i hi; simp at hi
  | cons x xs ih =>
    intro i hi
    by_cases hxs : xs = []
    · subst hxs
      simp only [List.length_cons, List.length_nil] at hi
      interval_cases i
      · simp [argmaxIdx]
    · have hj : argmaxIdx xs < xs.length := argmaxIdx_lt_length xs hxs
      have hgd : xs.getD (argmaxIdx xs) x = xs.getD (argmaxIdx xs) 0 := by
        rw [List.getD_eq_getElem _ _ hj, List.getD_eq_getElem _ _ hj]
      rw [argmaxIdx]
      split
      · rename_i hcond
        rw [hgd] at hcond
        rw [List.getD_cons_succ]
        cases i with
        | zero => rw [List.getD_cons_zero]; exact le_of_lt hcond
        | succ i =>
          rw [List.getD_cons_succ]
          exact ih i (by simpa using hi)
      · rename_i hcond
        rw [hgd] at hcond
        push_neg at hcond
        rw [List.getD_cons_zero]
        cases i with
        | zero => rw [List.getD_cons_zero]
        | succ i =>
          rw [List.getD_cons_succ]
          exact le_trans (ih i (by simpa using hi)) hcond

theorem argmaxIdx_first (l : List ℚ) :
    ∀ i, i < argmaxIdx l → l.getD i 0 < l.getD (argmaxIdx l) 0 := by
  induction l with
  | nil => intro i hi; simp [argmaxIdx] at hi
  | cons x xs ih =>
    intro i hi
    by_cases hxs : xs = []
    · subst hxs
      simp [argmaxIdx] at hi
    · have hj : argmaxIdx xs < xs.length := argmaxIdx_lt_length xs hxs
      have hgd : xs.getD (argmaxIdx xs) x = xs.getD (argmaxIdx xs) 0 := by
        rw [List.getD_eq_getElem _ _ hj, List.getD_eq_getElem _ _ hj]
      rw [argmaxIdx] at hi ⊢
      split at hi
      · rename_i hcond
        rw [hgd] at hcond
        simp only [if_pos (hgd ▸ hcond)] at *
        rw [List.getD_cons_succ]
        cases i with
        | zero => rw [List.getD_cons_zero]; exact hcond
        | succ i =>
          rw [List.getD_cons_succ]
          exact ih i (by omega)
      · omega

/-- C9: `GetAction` returns the Action whose discrete choice is the first
index attaining the maximal discrete score, together with the two continuous
parameters stored at positions `2 * choice` and `2 * choice + 1` for that
choice. -/
theorem getAction_argmax (ao : ActorOutputS) (h : ao.discreteScores ≠ []) :
    (getAction ao).choice < ao.discreteScores.length ∧
    (∀ i, i < ao.discreteScores.length →
      ao.discreteScores.getD i 0
        ≤ ao.discreteScores.getD (getAction ao).choice 0) ∧
    (∀ i, i < (getAction ao).choice →
      ao.discreteScores.getD i 0
        < ao.discreteScores.getD (getAction ao).choice 0) ∧
    (getAction ao).arg1 = ao.contParams.getD (2 * (getAction ao).choice) 0 ∧
    (getAction ao).arg2
      = ao.contParams.getD (2 * (getAction ao).choice + 1) 0 :=
  ⟨argmaxIdx_lt_length _ h, argmaxIdx_max _, argmaxIdx_first _, rfl, rfl⟩

/-- Witness for C9: a concrete hybrid output whose second and third scores tie
for the maximum; the decoded choice is a valid index. -/
theorem getAction_argmax_witness :
    (getAction ⟨[1, 3, 3], [10, 11, 20, 21, 30, 31], []⟩).choice
      < (ActorOutputS.discreteScores ⟨[1, 3, 3], [10, 11, 20, 21, 30, 31], []⟩).length :=
  (getAction_argmax ⟨[1, 3, 3], [10, 11, 20, 21, 30, 31], []⟩ (by decide)).1

/-- C3: in `UpdateActorCritic` every transition's critic training target is
the reward plus gamma times the target-critic evaluation of the target-actor
action at the next state when a next state is present, and the reward alone
when it is absent; the targets depend only on the TARGET networks — two
instances differing arbitrarily in their online networks compute identical
targets. -/
theorem criticTargets_bootstrap (d d' : DQNNets) (batch : List Transition)
    (hA : d.actorTargetNet = d'.actorTargetNet)
    (hC : d.criticTargetNet = d'.criticTargetNet)
    (hG : d.gamma = d'.gamma) :
    (∀ i : Nat, ∀ h : i < batch.length,
      (criticTargets d batch).getD i 0
        = Option.elim (batch.get ⟨i, h⟩).nextState (batch.get ⟨i, h⟩).reward
            (fun s => (batch.get ⟨i, h⟩).reward + d.gamma *
              criticForwardThroughActor d.criticTargetNet d.actorTargetNet s
                (batch.get ⟨i, h⟩).task)) ∧
    criticTargets d batch = criticTargets d' batch := by
  constructor
  · intro i h
    have h2 : i < (criticTargets d batch).length := by
      simpa [criticTargets] using h
    rw [List.getD_eq_getElem _ _ h2]
    simp only [criticTargets, List.getElem_map, List.get_eq_getElem]
    rcases hns : batch[i].nextState with _ | s <;> simp [hns]
  · simp only [criticTargets, hA, hC, hG]

/-- Witness for C3: the concrete witness networks differ only in their online
nets and compute the same targets on a bootstrapped-plus-terminal batch. -/
theorem criticTargets_bootstrap_witness :
    criticTargets netsW batchW = criticTargets netsW2 batchW :=
  (criticTargets_bootstrap netsW netsW2 batchW rfl rfl rfl).2

theorem shareLayerByName_names (l : Layer) (acc : List Layer) :
    (shareLayerByName l acc).map Layer.name = acc.map Layer.name := by
  induction acc with
  | nil => rfl
  | cons a acc ih =>
    simp only [shareLayerByName, List.map_cons] at ih ⊢
    rcases eq_or_ne a.name l.name with h | h <;> simp [h, ih]

theorem exists_name_iff (acc acc2 : List Layer)
    (hn : acc.map Layer.name = acc2.map Layer.name) (nm : String) :
    (∃ s ∈ acc, s.name = nm) ↔ ∃ s ∈ acc2, s.name = nm := by
  constructor <;> rintro ⟨s, hs, rfl⟩
  · have hmem : s.name ∈ acc2.map Layer.name := by
      rw [← hn]
      exact List.mem_map_of_mem Layer.name hs
    obtain ⟨s2, hs2, he2⟩ := List.mem_map.mp hmem
    exact ⟨s2, hs2, he2⟩
  · have hmem : s.name ∈ acc.map Layer.name := by
      rw [hn]
      exact List.mem_map_of_mem Layer.name hs
    obtain ⟨s2, hs2, he2⟩ := List.mem_map.mp hmem
    exact ⟨s2, hs2, he2⟩

theorem any_name_iff (acc : List Layer) (nm : String) :
    acc.any (fun s => s.name == nm) = true ↔ ∃ s ∈ acc, s.name = nm := by
  simp [List.any_eq_true]

theorem isOk_ok {α : Type} (a : α) :
    (Except.ok a : Except String α).isOk = true := rfl

theorem isOk_error {α : Type} (e : String) :
    (Except.error e : Except String α).isOk = false := rfl

theorem shareRoleLayers_isOk (ow : List Layer) :
    ∀ acc : List Layer,
      (shareRoleLayers ow acc).isOk = true ↔
        ∀ l ∈ ow, ∃ s ∈ acc, s.name = l.name := by
  induction ow with
  | nil =>
    intro acc
    simp [shareRoleLayers, isOk_ok]
  | cons l rest ih =>
    intro acc
    rw [shareRoleLayers]
    by_cases hc : acc.any (fun s => s.name == l.name) = true
    · rw [if_pos hc, ih (shareLayerByName l acc)]
      constructor
      · intro hall l' hl'
        rcases List.mem_cons.mp hl' with rfl | hm
        · exact (any_name_iff acc l'.name).mp hc
        · exact (exists_name_iff _ _ (shareLayerByName_names l acc)
            l'.name).mp (hall l' hm)
      · intro hall l' hl'
        exact (exists_name_iff _ _ (shareLayerByName_names l acc)
          l'.name).mpr (hall l' (List.mem_cons_of_mem l hl'))
    · rw [if_neg hc, isOk_error]
      refine ⟨fun h => absurd h (by decide), fun hall => absurd
        ((any_name_iff acc l.name).mpr
          (hall l (List.mem_cons_self l rest))) hc⟩

theorem shareLayerByName_sets (l : Layer) (acc : List Layer) :
    ∀ s ∈ shareLayerByName l acc, s.name = l.name → s.params = l.params := by
  intro s hs he
  simp only [shareLayerByName, List.mem_map] at hs
  obtain ⟨a, ha, rfl⟩ := hs
  rcases eq_or_ne a.name l.name with h | h
  · rw [if_pos h]
  · rw [if_neg h] at he ⊢
    exact absurd he h

theorem shareLayerByName_keeps (l : Layer) (acc : List Layer) (nm : String)
    (hne : l.name ≠ nm) (p : Nat)
    (hall : ∀ s ∈ acc, s.name = nm → s.params = p) :
    ∀ s ∈ shareLayerByName l acc, s.name = nm → s.params = p := by
  intro s hs he
  simp only [shareLayerByName, List.mem_map] at hs
  obtain ⟨a, ha, rfl⟩ := hs
  rcases eq_or_ne a.name l.name with h | h
  · rw [if_pos h] at he ⊢
    exact absurd (h ▸ he) hne
  · rw [if_neg h] at he ⊢
    exact hall a ha he

theorem shareRoleLayers_keeps (ow : List Layer) :
    ∀ (acc r : List Layer) (nm : String) (p : Nat),
      (∀ l ∈ ow, l.name ≠ nm) →
      shareRoleLayers ow acc = Except.ok r →
      (∀ s ∈ acc, s.name = nm → s.params = p) →
      ∀ s ∈ r, s.name = nm → s.params = p := by
  induction ow with
  | nil =>
    intro acc r nm p _ hr hall
    rw [shareRoleLayers] at hr
    cases hr
    exact hall
  | cons l rest ih =>
    intro acc r nm p hne hr hall
    rw [shareRoleLayers] at hr
    by_cases hc : acc.any (fun s => s.name == l.name) = true
    · rw [if_pos hc] at hr
      exact ih _ r nm p (fun l2 h2 => hne l2 (List.mem_cons_of_mem l h2)) hr
        (shareLayerByName_keeps l acc nm (hne l (List.mem_cons_self l rest))
          p hall)
    · rw [if_neg hc] at hr
      cases hr

theorem shareRoleLayers_params (ow : List Layer) :
    ∀ (acc r : List Layer), (ow.map Layer.name).Nodup →
      shareRoleLayers ow acc = Except.ok r →
      ∀ l ∈ ow, ∀ s ∈ r, s.name = l.name → s.params = l.params := by
  induction ow with
  | nil => simp
  | cons l rest ih =>
    intro acc r hnd hr l' hl' s hs hname
    rw [shareRoleLayers] at hr
    by_cases hc : acc.any (fun s => s.name == l.name) = true
    · rw [if_pos hc] at hr
      rcases List.mem_cons.mp hl' with heq | hm
      · rw [heq] at hname ⊢
        have hrest : ∀ l2 ∈ rest, l2.name ≠ l.name := by
          intro l2 h2 he2
          have hmm : l.name ∈ rest.map Layer.name := he2 ▸
            List.mem_map_of_mem Layer.name h2
          exact (List.nodup_cons.mp (by simpa using hnd)).1 hmm
        exact shareRoleLayers_keeps rest _ r l.name l.params hrest hr
          (shareLayerByName_sets l acc) s hs hname
      · exact ih _ r (List.nodup_cons.mp (by simpa using hnd)).2 hr l' hm
          s hs hname
    · rw [if_neg hc] at hr
      cases hr

/-- C5: `ShareParameters` succeeds exactly when every one of the first nActor
actor layers and first nCritic critic layers of the owner has a same-named
layer on the other instance (an unmatched name yields an immediate error,
never a silent skip), and on success every matched slave layer holds a
reference to the owner layer's parameter storage. -/
theorem shareParameters_matching (self other : NetLayers)
    (nActor nCritic : Nat)
    (hndA : ((self.actorLayers.take nActor).map Layer.name).Nodup)
    (hndC : ((self.criticLayers.take nCritic).map Layer.name).Nodup) :
    ((shareParameters self other nActor nCritic).isOk = true ↔
      ((∀ l ∈ self.actorLayers.take nActor,
          ∃ s ∈ other.actorLayers, s.name = l.name) ∧
       (∀ l ∈ self.criticLayers.take nCritic,
          ∃ s ∈ other.criticLayers, s.name = l.name))) ∧
    (∀ r : NetLayers, shareParameters self other nActor nCritic
        = Except.ok r →
      (∀ l ∈ self.actorLayers.take nActor,
        ∀ s ∈ r.actorLayers, s.name = l.name → s.params = l.params) ∧
      (∀ l ∈ self.criticLayers.take nCritic,
        ∀ s ∈ r.criticLayers, s.name = l.name → s.params = l.params)) := by
  constructor
  · rw [shareParameters]
    cases hA : shareRoleLayers (self.actorLayers.take nActor)
        other.actorLayers with
    | error e =>
      rw [isOk_error]
      constructor
      · intro h
        exact absurd h (by decide)
      · intro ⟨h1, _⟩
        have hthis := (shareRoleLayers_isOk (self.actorLayers.take nActor)
          other.actorLayers).mpr h1
        rw [hA, isOk_error] at hthis
        exact absurd hthis (by decide)
    | ok a =>
      cases hB : shareRoleLayers (self.criticLayers.take nCritic)
          other.criticLayers with
      | error e =>
        rw [isOk_error]
        constructor
        · intro h
          exact absurd h (by decide)
        · intro ⟨_, h2⟩
          have hthis := (shareRoleLayers_isOk
            (self.criticLayers.take nCritic) other.criticLayers).mpr h2
          rw [hB, isOk_error] at hthis
          exact absurd hthis (by decide)
      | ok c =>
        rw [isOk_ok]
        constructor
        · intro _
          refine ⟨(shareRoleLayers_isOk (self.actorLayers.take nActor)
              other.actorLayers).mp (by rw [hA]; exact isOk_ok a),
            (shareRoleLayers_isOk (self.criticLayers.take nCritic)
              other.criticLayers).mp (by rw [hB]; exact isOk_ok c)⟩
        · intro _
          rfl
  · intro r hr
    rw [shareParameters] at hr
    cases hA : shareRoleLayers (self.actorLayers.take nActor)
        other.actorLayers with
    | error e => rw [hA] at hr; cases hr
    | ok a =>
      rw [hA] at hr
      cases hB : shareRoleLayers (self.criticLayers.take nCritic)
          other.criticLayers with
      | error e => rw [hB] at hr; cases hr
      | ok c =>
        rw [hB] at hr
        cases hr
        exact ⟨shareRoleLayers_params _ _ _ hndA hA,
               shareRoleLayers_params _ _ _ hndC hB⟩

/-- Witness for C5: sharing two actor layers and one critic layer between
concrete instances whose layer names all match succeeds. -/
theorem shareParameters_matching_witness :
    (shareParameters selfW otherW 2 1).isOk = true :=
  (shareParameters_matching selfW otherW 2 1 (by decide) (by decide)).1.mpr
    ⟨by decide, by decide⟩

/-- C6: after `ShareReplayMemory` both instances reference one buffer: an
`AddTransition` through either instance changes the size both instances
observe identically (to `min(old size + 1, cap)`), and `ClearReplayMemory`
invoked through either instance leaves both observing size 0. -/
theorem shareReplayMemory_shared (cap : Nat) (st : ReplayStore)
    (self other : DQNRef) :
    (∀ t : Transition,
      memorySize (addTransitionRef cap st self t)
          (shareReplayMemory self other)
        = memorySize (addTransitionRef cap st self t) self ∧
      memorySize (addTransitionRef cap st (shareReplayMemory self other) t)
          self
        = memorySize (addTransitionRef cap st (shareReplayMemory self other) t)
            (shareReplayMemory self other) ∧
      memorySize (addTransitionRef cap st self t) self
        = min (memorySize st self + 1) cap) ∧
    memorySize (clearReplayMemory st self) (shareReplayMemory self other)
      = 0 ∧
    memorySize (clearReplayMemory st (shareReplayMemory self other)) self
      = 0 := by
  refine ⟨fun t => ⟨?_, ?_, ?_⟩, ?_, ?_⟩ <;>
    simp [memorySize, addTransitionRef, clearReplayMemory,
      shareReplayMemory, addTransition, keepLast_length]

/-- C10: `ClearReplayMemory` modifies only the replay buffer: afterwards the
size is 0 (also as observed by any instance sharing the buffer), every other
buffer in the store is untouched, and the solver iteration counters, save
path and network parameters of the instance are unchanged. -/
theorem clearReplayMemory_frame (m : DQNMachine) (other : DQNRef)
    (hsh : other.memPtr = m.dqn.memPtr) :
    memorySize (clearReplayMemoryM m).store (clearReplayMemoryM m).dqn = 0 ∧
    memorySize (clearReplayMemoryM m).store other = 0 ∧
    (∀ p : Nat, p ≠ m.dqn.memPtr →
      (clearReplayMemoryM m).store.buffers p = m.store.buffers p) ∧
    (clearReplayMemoryM m).dqn.actorIterCount = m.dqn.actorIterCount ∧
    (clearReplayMemoryM m).dqn.criticIterCount = m.dqn.criticIterCount ∧
    (clearReplayMemoryM m).dqn.semanticIterCount
      = m.dqn.semanticIterCount ∧
    (clearReplayMemoryM m).dqn.savePath = m.dqn.savePath ∧
    (clearReplayMemoryM m).dqn.actorParams = m.dqn.actorParams ∧
    (clearReplayMemoryM m).dqn.criticParams = m.dqn.criticParams := by
  refine ⟨?_, ?_, ?_, rfl, rfl, rfl, rfl, rfl, rfl⟩
  · simp [clearReplayMemoryM, clearReplayMemory, memorySize]
  · simp [clearReplayMemoryM, clearReplayMemory, memorySize, hsh]
  · intro p hp
    simp [clearReplayMemoryM, clearReplayMemory, hp]

/-- Witness for C10: clearing the concrete machine, whose buffer holds one
transition, leaves size 0 as observed through the instance itself. -/
theorem clearReplayMemory_frame_witness :
    memorySize (clearReplayMemoryM machineW).store
      (clearReplayMemoryM machineW).dqn = 0 :=
  (clearReplayMemory_frame machineW machineW.dqn rfl).1

theorem writtenFiles_stem_iter (stem : String) (iter : Nat)
    (snapshotMemory : Bool) :
    ∀ f ∈ writtenFiles stem iter snapshotMemory,
      f.stem = stem ∧ f.iter = iter := by
  intro f hf
  cases snapshotMemory <;> simp [writtenFiles] at hf <;>
    rcases hf with rfl | rfl | rfl <;> exact ⟨rfl, rfl⟩

/-- C7: `Snapshot` with removeOld only ever deletes prior files sharing the
same stem with a strictly lower iteration; the files just written survive,
files under a different stem are never touched, and snapshotting at
iteration 10 and then 20 with removeOld leaves exactly the iteration-20
artifacts on disk. -/
theorem snapshot_remove_old (stem : String) (iter : Nat)
    (removeOld snapshotMemory : Bool) (fs : List SnapshotFile) :
    (∀ f ∈ fs, f ∉ snapshot stem iter removeOld snapshotMemory fs →
      removeOld = true ∧ f.stem = stem ∧ f.iter < iter) ∧
    (∀ f ∈ writtenFiles stem iter snapshotMemory,
      f ∈ snapshot stem iter removeOld snapshotMemory fs) ∧
    (∀ f : SnapshotFile, f.stem ≠ stem →
      (f ∈ snapshot stem iter removeOld snapshotMemory fs ↔ f ∈ fs)) ∧
    snapshot "agent0" 20 true true (snapshot "agent0" 10 true true [])
      = writtenFiles "agent0" 20 true := by
  refine ⟨?_, ?_, ?_, by decide⟩
  · intro f hf hnot
    cases removeOld with
    | false =>
      exfalso
      apply hnot
      show f ∈ fs ++ writtenFiles stem iter snapshotMemory
      exact List.mem_append_left _ hf
    | true =>
      refine ⟨rfl, ?_⟩
      by_contra hcon
      rw [not_and_or] at hcon
      apply hnot
      show f ∈ removeSnapshots stem iter
        (fs ++ writtenFiles stem iter snapshotMemory)
      refine List.mem_filter.mpr ⟨List.mem_append_left _ hf, ?_⟩
      rcases hcon with h | h <;> simp [h]
  · intro f hf
    have hfi := writtenFiles_stem_iter stem iter snapshotMemory f hf
    cases removeOld with
    | false =>
      show f ∈ fs ++ writtenFiles stem iter snapshotMemory
      exact List.mem_append_right _ hf
    | true =>
      show f ∈ removeSnapshots stem iter
        (fs ++ writtenFiles stem iter snapshotMemory)
      refine List.mem_filter.mpr ⟨List.mem_append_right _ hf, ?_⟩
      simp [hfi.2]
  · intro f hne
    cases removeOld with
    | false =>
      show f ∈ fs ++ writtenFiles stem iter snapshotMemory ↔ f ∈ fs
      rw [List.mem_append]
      constructor
      · rintro (h | h)
        · exact h
        · exact absurd
            (writtenFiles_stem_iter stem iter snapshotMemory f h).1 hne
      · exact fun h => Or.inl h
    | true =>
      show f ∈ removeSnapshots stem iter
        (fs ++ writtenFiles stem iter snapshotMemory) ↔ f ∈ fs
      rw [removeSnapshots, List.mem_filter, List.mem_append]
      constructor
      · rintro ⟨h | h, _⟩
        · exact h
        · exact absurd
            (writtenFiles_stem_iter stem iter snapshotMemory f h).1 hne
      · intro h
        refine ⟨Or.inl h, ?_⟩
        simp [hne]

/-- Witness for C7: the iteration-20 caffemodel written on top of an
iteration-10 snapshot survives the removeOld pass. -/
theorem snapshot_remove_old_witness :
    (⟨"agent0", 20, ArtifactKind.caffemodel⟩ : SnapshotFile)
      ∈ snapshot "agent0" 20 true true (snapshot "agent0" 10 true true []) :=
  (snapshot_remove_old "agent0" 20 true true
    (snapshot "agent0" 10 true true [])).2.1
    ⟨"agent0", 20, ArtifactKind.caffemodel⟩ (by decide)

/-- C8: `SelectAction` is epsilon-greedy: when the uniform draw falls below
epsilon it returns the random ActorOutput — random score profile, continuous
parameters inside their valid ranges, communication randomized exactly when
flagged randomizable (otherwise the greedy output's message segment is
kept) — and otherwise it returns the actor network's greedy forward output
with no noise added. -/
theorem selectAction_epsilon_greedy
    (actorForward : List ℚ → Int → ActorOutputS)
    (ranges : List ParamRange) (state : List ℚ) (task : Int)
    (epsilon draw : ℚ) (rawScores rawParams rawComm : List ℚ) :
    (draw < epsilon →
      selectAction actorForward ranges true state task epsilon draw
          rawScores rawParams rawComm
        = getRandomActorOutput ranges rawScores rawParams rawComm) ∧
    (draw < epsilon →
      selectAction actorForward ranges false state task epsilon draw
          rawScores rawParams rawComm
        = randomizeNonCommActions ranges rawScores rawParams
            (actorForward state task) ∧
      (selectAction actorForward ranges false state task epsilon draw
          rawScores rawParams rawComm).commMessage
        = (actorForward state task).commMessage) ∧
    (∀ cr : Bool, ¬ draw < epsilon →
      selectAction actorForward ranges cr state task epsilon draw
          rawScores rawParams rawComm = actorForward state task) ∧
    ((∀ r ∈ ranges, r.lo ≤ r.hi) →
      (∀ u ∈ rawParams, 0 ≤ u ∧ u ≤ 1) →
      ∀ i : Nat,
        i < (getRandomActorOutput ranges rawScores rawParams
              rawComm).contParams.length →
        (ranges.getD i ⟨0, 0⟩).lo
            ≤ (getRandomActorOutput ranges rawScores rawParams
                rawComm).contParams.getD i 0 ∧
          (getRandomActorOutput ranges rawScores rawParams
              rawComm).contParams.getD i 0 ≤ (ranges.getD i ⟨0, 0⟩).hi) := by
  refine ⟨fun h => by simp [selectAction, h],
    fun h => ⟨by simp [selectAction, h],
      by simp [selectAction, h, randomizeNonCommActions]⟩,
    fun cr h => by simp [selectAction, h], ?_⟩
  intro hr hu i hi
  have hlen : i < (List.zipWith randomInRange ranges rawParams).length := hi
  have hi1 : i < ranges.length := by
    simp only [List.length_zipWith] at hlen
    omega
  have hi2 : i < rawParams.length := by
    simp only [List.length_zipWith] at hlen
    omega
  have hgd : (getRandomActorOutput ranges rawScores rawParams
        rawComm).contParams.getD i 0
      = randomInRange ranges[i] rawParams[i] := by
    show (List.zipWith randomInRange ranges rawParams).getD i 0 = _
    rw [List.getD_eq_getElem _ _ hlen, List.getElem_zipWith]
  have hrR := hr ranges[i] (List.getElem_mem hi1)
  have huU := hu rawParams[i] (List.getElem_mem hi2)
  have hgR : ranges.getD i ⟨0, 0⟩ = ranges[i] :=
    List.getD_eq_getElem _ _ hi1
  rw [hgd, hgR]
  unfold randomInRange
  constructor
  · nlinarith [hrR, huU.1, huU.2]
  · nlinarith [hrR, huU.1, huU.2]

/-- Witness for C8: with draw one quarter below epsilon one half, the
concrete call returns the random output. -/
theorem selectAction_epsilon_greedy_witness :
    selectAction actorFwdW [⟨0, 10⟩] true [] 0 (1/2) (1/4) [5] [1/2] [7]
      = getRandomActorOutput [⟨0, 10⟩] [5] [1/2] [7] :=
  (selectAction_epsilon_greedy actorFwdW [⟨0, 10⟩] [] 0 (1/2) (1/4)
    [5] [1/2] [7]).1 (by norm_num)

theorem rank_pos_iff (p : Phase) : 1 ≤ p.rank ↔ p ≠ Phase.idle := by
  cases p <;> simp [Phase.rank]

theorem filter_card_full {M : Nat} (p : Fin M → Prop) [DecidablePred p]
    (h : (Finset.univ.filter p).card = M) : ∀ j, p j := by
  intro j
  have hsub : Finset.univ.filter p = Finset.univ :=
    Finset.eq_of_subset_of_card_le (Finset.filter_subset _ _)
      (by rw [h, Finset.card_univ, Fintype.card_fin])
  have hj : j ∈ Finset.univ.filter p := by
    rw [hsub]
    exact Finset.mem_univ j
  exact (Finset.mem_filter.mp hj).2

theorem arrived1_le {M : Nat} (s : SyncState M) : arrived1 s ≤ M := by
  have h := Finset.card_filter_le (Finset.univ : Finset (Fin M))
    (fun j => s.phase j ≠ Phase.idle)
  simpa [Finset.card_univ, Fintype.card_fin] using h

theorem syncInv_init (M : Nat) : SyncInv (initSync M) := by
  refine ⟨?_, ?_, ?_, ?_⟩
  · intro j hj
    simp [initSync, Phase.rank] at hj
  · intro j hj
    simp [initSync, Phase.rank] at hj
  · intro i j hij
    simp [initSync, Phase.rank] at hij
  · intro i j hij
    simp [initSync, Phase.rank] at hij

theorem syncInv_step {N : Nat} {s s2 : SyncState N}
    (hstep : SyncStep N N s s2) (hinv : SyncInv s) : SyncInv s2 := by
  obtain ⟨h1, h2, h3, h4⟩ := hinv
  cases hstep with
  | write1 i v hid =>
    have hno2 : ∀ i2 : Fin N, ¬ 2 ≤ (s.phase i2).rank := by
      intro i2 hr2
      have hcon := h3 i2 i hr2
      rw [hid] at hcon
      simp [Phase.rank] at hcon
    refine ⟨?_, ?_, ?_, ?_⟩
    · intro j hj
      dsimp only at hj ⊢
      by_cases hji : j = i
      · subst hji
        rw [Function.update_same]
        rfl
      · rw [Function.update_noteq hji] at hj ⊢
        exact h1 j hj
    · intro j hj
      dsimp only at hj ⊢
      by_cases hji : j = i
      · subst hji
        rw [Function.update_same] at hj
        simp [Phase.rank] at hj
      · rw [Function.update_noteq hji] at hj
        exact h2 j hj
    · intro i2 j hr2
      dsimp only at hr2 ⊢
      by_cases h2i : i2 = i
      · subst h2i
        rw [Function.update_same] at hr2
        simp [Phase.rank] at hr2
      · rw [Function.update_noteq h2i] at hr2
        exact absurd hr2 (hno2 i2)
    · intro i2 j hr4
      dsimp only at hr4 ⊢
      by_cases h2i : i2 = i
      · subst h2i
        rw [Function.update_same] at hr4
        simp [Phase.rank] at hr4
      · rw [Function.update_noteq h2i] at hr4
        have hcon := h4 i2 i hr4
        rw [hid] at hcon
        simp [Phase.rank] at hcon
  | pass1 i hw hN =>
    have hall : ∀ j : Fin N, s.phase j ≠ Phase.idle :=
      filter_card_full _ hN
    have hall1 : ∀ j : Fin N, 1 ≤ (s.phase j).rank :=
      fun j => (rank_pos_iff (s.phase j)).mpr (hall j)
    refine ⟨?_, ?_, ?_, ?_⟩
    · intro j _
      exact h1 j (hall1 j)
    · intro j hj
      dsimp only at hj ⊢
      by_cases hji : j = i
      · subst hji
        rw [Function.update_same] at hj
        simp [Phase.rank] at hj
      · rw [Function.update_noteq hji] at hj
        exact h2 j hj
    · intro i2 j _
      dsimp only
      by_cases hji : j = i
      · subst hji
        rw [Function.update_same]
        decide
      · rw [Function.update_noteq hji]
        exact hall1 j
    · intro i2 j hr4
      dsimp only at hr4 ⊢
      by_cases h2i : i2 = i
      · subst h2i
        rw [Function.update_same] at hr4
        simp [Phase.rank] at hr4
      · rw [Function.update_noteq h2i] at hr4
        have hcon := h4 i2 i hr4
        rw [hw] at hcon
        simp [Phase.rank] at hcon
  | write2 i v hp =>
    refine ⟨?_, ?_, ?_, ?_⟩
    · intro j hj
      dsimp only at hj ⊢
      by_cases hji : j = i
      · subst hji
        exact h1 j (by rw [hp]; decide)
      · rw [Function.update_noteq hji] at hj
        exact h1 j hj
    · intro j hj
      dsimp only at hj ⊢
      by_cases hji : j = i
      · subst hji
        rw [Function.update_same]
        rfl
      · rw [Function.update_noteq hji] at hj ⊢
        exact h2 j hj
    · intro i2 j hr2
      dsimp only at hr2 ⊢
      have hold : ∀ j2 : Fin N, 1 ≤ (s.phase j2).rank := by
        by_cases h2i : i2 = i
        · subst h2i
          intro j2
          exact h3 i2 j2 (by rw [hp]; decide)
        · rw [Function.update_noteq h2i] at hr2
          intro j2
          exact h3 i2 j2 hr2
      by_cases hji : j = i
      · subst hji
        rw [Function.update_same]
        decide
      · rw [Function.update_noteq hji]
        exact hold j
    · intro i2 j hr4
      dsimp only at hr4 ⊢
      by_cases h2i : i2 = i
      · subst h2i
        rw [Function.update_same] at hr4
        simp [Phase.rank] at hr4
      · rw [Function.update_noteq h2i] at hr4
        have hcon := h4 i2 i hr4
        rw [hp] at hcon
        simp [Phase.rank] at hcon
  | pass2 i hw2 hN2 =>
    have hall3 : ∀ j : Fin N, 3 ≤ (s.phase j).rank :=
      filter_card_full _ hN2
    refine ⟨?_, ?_, ?_, ?_⟩
    · intro j _
      exact h1 j (le_trans (by norm_num) (hall3 j))
    · intro j _
      exact h2 j (hall3 j)
    · intro i2 j _
      dsimp only
      by_cases hji : j = i
      · subst hji
        rw [Function.update_same]
        decide
      · rw [Function.update_noteq hji]
        exact le_trans (by norm_num) (hall3 j)
    · intro i2 j _
      dsimp only
      by_cases hji : j = i
      · subst hji
        rw [Function.update_same]
        decide
      · rw [Function.update_noteq hji]
        exact hall3 j

theorem syncInv_reachable {N : Nat} {s : SyncState N}
    (h : SyncReachable N N s) : SyncInv s := by
  induction h with
  | refl => exact syncInv_init N
  | tail hab hstep ih => exact syncInv_step hstep ih

theorem deadInv_step {N M : Nat} (hM : M < N) {s s2 : SyncState M}
    (hstep : SyncStep N M s s2) (hinv : DeadInv s) : DeadInv s2 := by
  cases hstep with
  | write1 i v hid =>
    intro j
    dsimp only
    by_cases hji : j = i
    · subst hji
      rw [Function.update_same]
      exact Or.inr rfl
    · rw [Function.update_noteq hji]
      exact hinv j
  | pass1 i hw hN =>
    exfalso
    have hle := arrived1_le s
    omega
  | write2 i v hp =>
    exfalso
    rcases hinv i with h | h <;> rw [hp] at h <;> exact Phase.noConfusion h
  | pass2 i hw2 hN2 =>
    exfalso
    rcases hinv i with h | h <;> rw [hw2] at h <;> exact Phase.noConfusion h

theorem deadInv_reachable {N M : Nat} (hM : M < N) {s : SyncState M}
    (hs : SyncReachable N M s) : DeadInv s := by
  induction hs with
  | refl => intro j; exact Or.inl rfl
  | tail hab hstep ih => exact deadInv_step hM hstep ih

/-- C4: in every state the two-phase barrier protocol can reach with a full
cohort of N callers against an N-party rendezvous, a thread past the first
rendezvous (rank 2 or more: the point where teammates' phase-1 slots are
read) certifies every phase-1 slot is already written, and a returned thread
certifies every phase-2 slot is written — no slot is ever observed before
its writer finished; with fewer than N callers, every caller stays at or
before the first rendezvous forever (the call never returns). -/
theorem synchronizedUpdate_barrier (N : Nat) :
    (∀ s : SyncState N, SyncReachable N N s →
      (∀ i : Fin N, 2 ≤ (s.phase i).rank →
        ∀ j : Fin N, (s.slot1 j).isSome = true) ∧
      (∀ i : Fin N, s.phase i = Phase.done →
        ∀ j : Fin N, (s.slot2 j).isSome = true)) ∧
    (∀ M : Nat, M < N → ∀ s : SyncState M, SyncReachable N M s →
      ∀ i : Fin M, s.phase i = Phase.idle ∨ s.phase i = Phase.wrote1) := by
  constructor
  · intro s hs
    obtain ⟨h1, h2, h3, h4⟩ := syncInv_reachable hs
    constructor
    · intro i hi j
      exact h1 j (h3 i j hi)
    · intro i hi j
      exact h2 j (h4 i j (by rw [hi]; decide))
  · intro M hM s hs i
    exact deadInv_reachable hM hs i

/-- Witness for C4: a single thread against a two-party rendezvous is still
at the start (hence has not returned) in the initial state. -/
theorem synchronizedUpdate_barrier_witness :
    (initSync 1).phase ⟨0, Nat.one_pos⟩ = Phase.idle ∨
    (initSync 1).phase ⟨0, Nat.one_pos⟩ = Phase.wrote1 :=
  (synchronizedUpdate_barrier 2).2 1 Nat.one_lt_two (initSync 1)
    Relation.ReflTransGen.refl ⟨0, Nat.one_pos⟩

end DqnSpec
